import Mathlib

set_option linter.unusedVariables false

/-! Verification of the gh-release-downloader repository against its
specification.  The markdown-to-chat conversion function
(markdown_to_slack_format) is exercised by the repository test suite but its
body is not present under src/ (only its tests import it); its definitions
below are therefore modelled from the specification document, as noted in
their doc comments.  The release filtering and the Slack notification text
are translated from src/gh_release_downloader.py. -/

/-- Split a character list at newline characters: returns the first line and
the remaining lines.  Models splitting a Python string on the line
separator. -/
def splitNl : List Char → List Char × List (List Char)
  | [] => ([], [])
  | c :: cs =>
    let r := splitNl cs
    if c = '\n' then ([], r.1 :: r.2) else (c :: r.1, r.2)

/-- All lines of a document, in order.  The result is never empty. -/
def linesOf (l : List Char) : List (List Char) :=
  (splitNl l).1 :: (splitNl l).2

/-- Join lines back with a newline separator. -/
def unlines : List (List Char) → List Char
  | [] => []
  | [l] => l
  | l :: ls => l ++ '\n' :: unlines ls

/-- Remove leading and trailing whitespace from a line. -/
def trimList (l : List Char) : List Char :=
  ((l.reverse.dropWhile Char.isWhitespace).reverse).dropWhile Char.isWhitespace

/-- Modelled from the spec: a fence-toggle line is one that, after trimming
leading and trailing whitespace, starts with three or more backtick
characters. -/
def isFenceToggle (l : List Char) : Bool :=
  match trimList l with
  | b1 :: b2 :: b3 :: _ => b1 = '\x60' && b2 = '\x60' && b3 = '\x60'
  | _ => false

/-- Number of leading hash characters of a line. -/
def headerLevel (l : List Char) : Nat := (l.takeWhile (· = '#')).length

/-- Modelled from the spec: the header rewriter matches a line whose entire
content is 1 to 6 leading hash characters followed by at least one
whitespace character and then the heading text. -/
def headerMatches (l : List Char) : Bool :=
  let k := headerLevel l
  let rest := l.dropWhile (· = '#')
  decide (1 ≤ k) && decide (k ≤ 6) &&
    (match rest with | w :: _ => w.isWhitespace | [] => false)

/-- Modelled from the spec: level 1 yields the heading text upper-cased in
bold markers, level 2 the text as-is in bold markers, levels 3 to 6 the
text as-is in italic markers; non-matching lines pass through unchanged. -/
def headerStage (l : List Char) : List Char :=
  if headerMatches l then
    let k := headerLevel l
    let text := trimList (l.dropWhile (· = '#'))
    if k = 1 then '*' :: text.map Char.toUpper ++ ['*']
    else if k = 2 then '*' :: text ++ ['*']
    else '_' :: text ++ ['_']
  else l

/-- Modelled from the spec: match a markdown link at the head of the list:
an opening bracket, one or more characters excluding the closing bracket
(the text), the closing bracket, an opening parenthesis, one or more
characters excluding the closing parenthesis (the url), the closing
parenthesis.  Returns the replacement and the number of characters
consumed. -/
def linkMatch (l : List Char) : Option (List Char × Nat) :=
  match l with
  | c :: rest =>
    if c = '[' then
      match rest.findIdx? (· = ']') with
      | some i =>
        if 1 ≤ i then
          let text := rest.take i
          match rest.drop (i + 1) with
          | '(' :: rest2 =>
            match rest2.findIdx? (· = ')') with
            | some j =>
              if 1 ≤ j then
                let url := rest2.take j
                some ('<' :: url ++ '|' :: text ++ ['>'], i + j + 4)
              else none
            | none => none
          | _ => none
        else none
      | none => none
    else none
  | [] => none

/-- Left-to-right non-overlapping scan for link matches.  The first argument
counts characters still to skip (the tail of a replaced match). -/
def linkGo : Nat → List Char → List Char
  | _ + 1, [] => []
  | k + 1, _ :: cs => linkGo k cs
  | 0, [] => []
  | 0, c :: cs =>
    match linkMatch (c :: cs) with
    | some (repl, m) => repl ++ linkGo (m - 1) cs
    | none => c :: linkGo 0 cs

/-- Modelled from the spec: the link rewriter scans the line left to right
for non-overlapping link occurrences and replaces each one. -/
def linkStage (l : List Char) : List Char := linkGo 0 l

/-- Index of the first adjacent pair of the delimiter character. -/
def findPairIdx (d : Char) : List Char → Option Nat
  | a :: b :: rest =>
    if a = d && b = d then some 0 else (findPairIdx d (b :: rest)).map (· + 1)
  | _ => none

/-- Modelled from the spec: match a non-greedy double-delimiter span at the
head of the list: two copies of the delimiter, then the shortest non-empty
content followed by two more copies of the delimiter.  Returns the
single-asterisk-wrapped replacement and the number of characters
consumed. -/
def boldMatch (d : Char) (l : List Char) : Option (List Char × Nat) :=
  match l with
  | a :: b :: rest =>
    if a = d && b = d then
      match rest with
      | _ :: rtail =>
        match findPairIdx d rtail with
        | some q => some ('*' :: rest.take (q + 1) ++ ['*'], q + 5)
        | none => none
      | [] => none
    else none
  | _ => none

/-- Left-to-right non-overlapping scan for double-delimiter bold spans. -/
def boldGo (d : Char) : Nat → List Char → List Char
  | _ + 1, [] => []
  | k + 1, _ :: cs => boldGo d k cs
  | 0, [] => []
  | 0, c :: cs =>
    match boldMatch d (c :: cs) with
    | some (repl, m) => repl ++ boldGo d (m - 1) cs
    | none => c :: boldGo d 0 cs

/-- A character of a line during the emphasis stage: either an ordinary
character or an opaque placeholder protecting a captured span.  The spec
describes uniquely indexed placeholder tokens guaranteed not to collide
with document text; the opaque constructor carries the captured text
directly, so restoration in index order is the obvious substitution. -/
inductive PChar where
  | chr (c : Char)
  | ph (payload : List Char)
deriving DecidableEq

/-- Modelled from the spec: the protection step locates a single-asterisk
span (an asterisk, one or more non-asterisk characters, an asterisk) at the
head of the list and captures its literal text including the delimiters. -/
def protMatch (l : List Char) : Option (List Char × Nat) :=
  match l with
  | c :: rest =>
    if c = '*' then
      let content := rest.takeWhile (· ≠ '*')
      if content.isEmpty then none
      else
        match rest.drop content.length with
        | '*' :: _ => some ('*' :: content ++ ['*'], content.length + 2)
        | _ => none
    else none
  | [] => none

/-- Left-to-right non-overlapping protection scan: captured spans become
opaque placeholders, all other characters stay ordinary. -/
def protGo : Nat → List Char → List PChar
  | _ + 1, [] => []
  | k + 1, _ :: cs => protGo k cs
  | 0, [] => []
  | 0, c :: cs =>
    match protMatch (c :: cs) with
    | some (captured, m) => .ph captured :: protGo (m - 1) cs
    | none => .chr c :: protGo 0 cs

/-- Whether an emphasis-stage character is an ordinary asterisk.  A
placeholder is opaque, hence never an asterisk. -/
def isAstP : PChar → Bool
  | .chr c => c = '*'
  | .ph _ => false

/-- Modelled from the spec: the italic pass matches a single-asterisk span
whose delimiting asterisks are not adjacent to another asterisk.  The
prevAst flag says whether the character just before the scan position is an
asterisk (the lookbehind).  Returns the underscore-wrapped replacement and
the number of characters consumed. -/
def italMatch (prevAst : Bool) (l : List PChar) : Option (List PChar × Nat) :=
  match l with
  | p :: ps =>
    if isAstP p && !prevAst then
      let content := ps.takeWhile (fun q => !isAstP q)
      if content.isEmpty then none
      else
        match ps.drop content.length with
        | q :: qs =>
          if isAstP q then
            match qs with
            | q2 :: _ =>
              if isAstP q2 then none
              else some (.chr '_' :: content ++ [.chr '_'], content.length + 2)
            | [] => some (.chr '_' :: content ++ [.chr '_'], content.length + 2)
          else none
        | [] => none
    else none
  | [] => none

/-- Left-to-right non-overlapping italic scan; the Bool argument carries the
lookbehind across skipped characters. -/
def italGo : Nat → Bool → List PChar → List PChar
  | _ + 1, _, [] => []
  | k + 1, _, p :: ps => italGo k (isAstP p) ps
  | 0, _, [] => []
  | 0, prevAst, p :: ps =>
    match italMatch prevAst (p :: ps) with
    | some (repl, m) => repl ++ italGo (m - 1) (isAstP p) ps
    | none => p :: italGo 0 (isAstP p) ps

/-- Modelled from the spec: the restoration step substitutes every
placeholder back with its captured text. -/
def restorePh : List PChar → List Char
  | [] => []
  | .chr c :: ps => c :: restorePh ps
  | .ph s :: ps => s ++ restorePh ps

/-- Modelled from the spec: the emphasis rewriter runs the double-asterisk
bold pass, the double-underscore bold pass, the protection step, the italic
pass and the restoration step, in this order. -/
def emphasisStage (l : List Char) : List Char :=
  restorePh (italGo 0 false (protGo 0 (boldGo '_' 0 (boldGo '*' 0 l))))

/-- A list marker character. -/
def isBulletMarker (c : Char) : Bool := c = '-' || c = '*' || c = '+'

/-- Modelled from the spec: the list rewriter matches zero or more leading
whitespace characters, exactly one marker, then at least one whitespace
character, and replaces the marker plus its following space with the same
leading whitespace, a bullet glyph and one space. -/
def listStage (l : List Char) : List Char :=
  let ws := l.takeWhile Char.isWhitespace
  match l.dropWhile Char.isWhitespace with
  | m :: w :: rest =>
    if isBulletMarker m && w.isWhitespace then ws ++ '•' :: ' ' :: rest else l
  | _ => l

/-- Modelled from the spec: a line outside a fenced region flows through the
header, link, emphasis and list rewriters, in this order. -/
def rewriteLine (l : List Char) : List Char :=
  listStage (emphasisStage (linkStage (headerStage l)))

/-- Modelled from the spec: the fence state starts outside, flips on every
fence-toggle line, toggle lines and lines inside a fence are emitted
unchanged, and every other line is rewritten. -/
def processLines (fence : Bool) : List (List Char) → List (List Char)
  | [] => []
  | l :: ls =>
    if isFenceToggle l then l :: processLines (!fence) ls
    else if fence then l :: processLines fence ls
    else rewriteLine l :: processLines fence ls

/-- Modelled from the spec: markdown_to_slack_format is absent from src/
(only its tests import it).  The conversion splits the document into lines,
rewrites each line outside fenced regions, and joins the lines back with
the same separator; an absent input is returned unchanged. -/
def markdown_to_slack_format : Option String → Option String
  | none => none
  | some s => some (String.mk (unlines (processLines false (linesOf s.data))))

example : markdown_to_slack_format (some "# Main Header") = some "*MAIN HEADER*" := by decide
example : markdown_to_slack_format (some "## Section Header") = some "*Section Header*" := by decide
example : markdown_to_slack_format (some "### Subsection") = some "_Subsection_" := by decide
example : markdown_to_slack_format (some "This is **bold text** in markdown") = some "This is *bold text* in markdown" := by decide
example : markdown_to_slack_format (some "This is __bold text__ in markdown") = some "This is *bold text* in markdown" := by decide
example : markdown_to_slack_format (some "Check [this link](https://example.com) for more info") = some "Check <https://example.com|this link> for more info" := by decide
example : markdown_to_slack_format (some "See [link1](https://example1.com) and [link2](https://example2.com)") = some "See <https://example1.com|link1> and <https://example2.com|link2>" := by decide
example : markdown_to_slack_format (some "- Item 1\n- Item 2\n* Item 3") = some "• Item 1\n• Item 2\n• Item 3" := by decide
example : markdown_to_slack_format (some "- Item 1\n  - Subitem 1\n  - Subitem 2") = some "• Item 1\n  • Subitem 1\n  • Subitem 2" := by decide
example : markdown_to_slack_format (some "> This is a quote\n> Second line") = some "> This is a quote\n> Second line" := by decide
example : markdown_to_slack_format (some "") = some "" := by decide
example : markdown_to_slack_format none = none := rfl
example : markdown_to_slack_format (some "**Check [this](https://example.com)** for details") = some "*Check <https://example.com|this>* for details" := by decide

/-- Translated from src/gh_release_downloader.py (send_slack_notification):
the value of the text field of the JSON payload posted to the Slack
webhook.  The release body, when present and non-empty, is appended raw. -/
def send_slack_notification_text (html_url tag_name : String)
    (body : Option String) (url_client : String) : String :=
  let base := ":rocket: New release <" ++ html_url ++ "|" ++ tag_name ++
    "> deployed at " ++ url_client
  match body with
  | some b => if b = "" then base else base ++ "\n\n*Release notes:*\n" ++ b
  | none => base

/-- A GitHub release as far as get_github_releases inspects it: the tag name
and the prerelease flag. -/
structure Release where
  tag_name : String
  prerelease : Bool
deriving DecidableEq

/-- Substring containment, as the Python in operator on strings. -/
def containsSub (n : List Char) : List Char → Bool
  | [] => n.isEmpty
  | c :: cs => List.isPrefixOf n (c :: cs) || containsSub n cs

/-- Translated from src/gh_release_downloader.py (get_github_releases): the
filter keeps a release when its tag name starts with the version-prefix
argument, its prerelease flag equals include_prerelease, and its tag name
contains pre_release_type as a substring. -/
def releaseMatches (include_prerelease : Bool)
    (pre_release_type verPfx : String) (r : Release) : Bool :=
  List.isPrefixOf verPfx.data r.tag_name.data &&
  (r.prerelease == include_prerelease) &&
  containsSub pre_release_type.data r.tag_name.data

/-- The value of the Python semver.VersionInfo the sort key builds: the
three numeric components and the dot-separated prerelease identifiers
(build metadata is validated during parsing but ignored for precedence). -/
structure VersionInfo where
  major : Nat
  minor : Nat
  patch : Nat
  prerelease : List (List Char)
deriving DecidableEq

/-- Numeric value of a run of decimal digits. -/
def natOfDigits (l : List Char) : Nat :=
  l.foldl (fun n c => n * 10 + (c.toNat - 48)) 0

/-- A numeric core component: non-empty and without a leading zero (the
digits themselves are guaranteed by construction). -/
def numCoreOk (l : List Char) : Bool :=
  match l with
  | [] => false
  | c :: cs => c ≠ '0' || cs.isEmpty

/-- A character allowed in a prerelease or build identifier. -/
def isAlnumHyphen (c : Char) : Bool := c.isAlpha || c.isDigit || c = '-'

/-- Split a character list at a separator character. -/
def splitOnSep (d : Char) : List Char → List Char × List (List Char)
  | [] => ([], [])
  | c :: cs =>
    let r := splitOnSep d cs
    if c = d then ([], r.1 :: r.2) else (c :: r.1, r.2)

/-- All separator-delimited parts of a character list. -/
def partsOn (d : Char) (l : List Char) : List (List Char) :=
  (splitOnSep d l).1 :: (splitOnSep d l).2

/-- A valid prerelease identifier: non-empty, alphanumeric or hyphen
characters, and (when purely numeric) without a leading zero. -/
def validPreId (id : List Char) : Bool :=
  match id with
  | [] => false
  | c :: cs =>
    (c :: cs).all isAlnumHyphen &&
      (!((c :: cs).all Char.isDigit) || c ≠ '0' || cs.isEmpty)

/-- A valid build identifier: non-empty, alphanumeric or hyphen
characters. -/
def validBuildId (id : List Char) : Bool :=
  match id with
  | [] => false
  | _ => id.all isAlnumHyphen

/-- Semantic-version parsing as semver.VersionInfo.parse: three numeric
components without leading zeros separated by dots, an optional prerelease
part introduced by a hyphen, an optional build part introduced by a plus
sign, and nothing else.  An invalid version yields none (the Python code
raises ValueError there). -/
def parseSemver (l : List Char) : Option VersionInfo :=
  let d1 := l.takeWhile Char.isDigit
  match l.drop d1.length with
  | '.' :: r1 =>
    let d2 := r1.takeWhile Char.isDigit
    match r1.drop d2.length with
    | '.' :: r2 =>
      let d3 := r2.takeWhile Char.isDigit
      let r3 := r2.drop d3.length
      if numCoreOk d1 && numCoreOk d2 && numCoreOk d3 then
        match r3 with
        | [] => some ⟨natOfDigits d1, natOfDigits d2, natOfDigits d3, []⟩
        | '-' :: pr =>
          let preChars := pr.takeWhile (· ≠ '+')
          let ids := partsOn '.' preChars
          let buildOk :=
            match pr.drop preChars.length with
            | [] => true
            | '+' :: b => (partsOn '.' b).all validBuildId
            | _ => false
          if ids.all validPreId && buildOk then
            some ⟨natOfDigits d1, natOfDigits d2, natOfDigits d3, ids⟩
          else none
        | '+' :: b =>
          if (partsOn '.' b).all validBuildId then
            some ⟨natOfDigits d1, natOfDigits d2, natOfDigits d3, []⟩
          else none
        | _ => none
      else none
    | _ => none
  | _ => none

/-- Order-embedding of one prerelease identifier into a lexicographic list
of naturals: a numeric identifier sorts below every alphanumeric one, two
numeric identifiers compare by value, two alphanumeric ones compare
character by character with a terminator below every character, so a proper
prefix sorts first, exactly the semver precedence rules. -/
def encodePreId (id : List Char) : List Nat :=
  if id.all Char.isDigit then [0, natOfDigits id, 0]
  else 1 :: id.map (fun c => c.toNat + 1) ++ [0]

/-- Order-embedding of a whole version into a lexicographic list of
naturals: major, minor, patch, then a flag placing a release above any
prerelease of the same core, then the concatenated prerelease identifier
encodings (a prefix identifier list sorts first, as semver requires). -/
def encodeVer (v : VersionInfo) : List Nat :=
  [v.major, v.minor, v.patch, if v.prerelease.isEmpty then 1 else 0] ++
    (v.prerelease.map encodePreId).flatten

/-- Translated from src/gh_release_downloader.py (semver_sort_key): strip
every leading letter v, parse as semver, and fall back to version 0.0.0
when parsing fails; the value is embedded into the lexicographic order on
lists of naturals. -/
def semver_sort_key (tag : String) : List Nat :=
  match parseSemver (tag.data.dropWhile (· = 'v')) with
  | some v => encodeVer v
  | none => encodeVer ⟨0, 0, 0, []⟩

/-- Translated from src/gh_release_downloader.py (get_github_releases): the
fetched releases are filtered and then sorted by semantic version of the
tag, descending.  Python sorted with reverse enabled is a stable descending
sort, which insertion sort with a non-strict comparison reproduces
exactly. -/
def get_github_releases (releases : List Release) (include_prerelease : Bool)
    (pre_release_type verPfx : String) : List Release :=
  let filtered :=
    releases.filter (releaseMatches include_prerelease pre_release_type verPfx)
  List.insertionSort
    (fun a b => semver_sort_key b.tag_name ≤ semver_sort_key a.tag_name)
    filtered

example :
    get_github_releases
      [⟨"v1.2.3", false⟩, ⟨"v2.0.0-rc1", false⟩, ⟨"v2.0.0", false⟩,
       ⟨"vvv", false⟩] false "" "" =
    [⟨"v2.0.0", false⟩, ⟨"v2.0.0-rc1", false⟩, ⟨"v1.2.3", false⟩,
     ⟨"vvv", false⟩] := by decide

example : parseSemver "1.0.0-alpha.1".data =
    some ⟨1, 0, 0, [['a','l','p','h','a'], ['1']]⟩ := by decide
example : parseSemver "1.0.0-01".data = none := by decide
example : parseSemver "1.0".data = none := by decide
example : parseSemver "1.0.0+build.7".data = some ⟨1, 0, 0, []⟩ := by decide
example : semver_sort_key "vv1.0.0" = semver_sort_key "1.0.0" := by decide

/-! Generic list helper lemmas used across the claim proofs. -/

theorem takeWhile_append_eq {α : Type} {p : α → Bool} (a : List α) (w : α)
    (r : List α) (ha : ∀ x ∈ a, p x = true) (hw : p w = false) :
    (a ++ w :: r).takeWhile p = a := by
  induction a with
  | nil => simp [List.takeWhile_cons, hw]
  | cons x a ih =>
    have hx := ha x (List.mem_cons_self x a)
    simp [List.takeWhile_cons, hx,
      ih fun y hy => ha y (List.mem_cons_of_mem x hy)]

theorem dropWhile_append_eq {α : Type} {p : α → Bool} (a : List α) (w : α)
    (r : List α) (ha : ∀ x ∈ a, p x = true) (hw : p w = false) :
    (a ++ w :: r).dropWhile p = w :: r := by
  induction a with
  | nil => simp [List.dropWhile_cons, hw]
  | cons x a ih =>
    have hx := ha x (List.mem_cons_self x a)
    simp [List.dropWhile_cons, hx,
      ih fun y hy => ha y (List.mem_cons_of_mem x hy)]

theorem findIdx_append_eq {α : Type} (p : α → Bool) (a : List α) (w : α)
    (r : List α) (ha : ∀ x ∈ a, p x = false) (hw : p w = true) :
    (a ++ w :: r).findIdx? p = some a.length := by
  induction a with
  | nil => simp [hw]
  | cons x a ih =>
    have hx := ha x (List.mem_cons_self x a)
    rw [List.cons_append, List.findIdx?_cons, hx]
    simp only [Bool.false_eq_true, if_false, List.findIdx?_succ,
      ih fun y hy => ha y (List.mem_cons_of_mem x hy), Option.map_some',
      List.length_cons]

/-- Whitespace characters are not hash, marker or bracket characters. -/
theorem whitespace_cases (w : Char) (hw : w.isWhitespace = true) :
    w = ' ' ∨ w = '\t' ∨ w = '\r' ∨ w = '\n' := by
  simp only [Char.isWhitespace, Bool.or_eq_true, decide_eq_true_eq] at hw
  tauto

/-- Claim C6: the conversion returns an absent input unchanged rather than
raising, and returns the empty string for the empty string. -/
theorem markdown_none_and_empty :
    markdown_to_slack_format none = none ∧
    markdown_to_slack_format (some "") = some "" :=
  ⟨rfl, by decide⟩

/-- The fence state just before processing line i, starting from state b. -/
def fenceStateBefore (b : Bool) : List (List Char) → Nat → Bool
  | _, 0 => b
  | [], _ + 1 => b
  | l :: ls, i + 1 => fenceStateBefore (if isFenceToggle l then !b else b) ls i

theorem processLines_preserves (b : Bool) (ls : List (List Char)) (i : Nat)
    (l : List Char) (hget : ls[i]? = some l)
    (hcond : isFenceToggle l = true ∨ fenceStateBefore b ls i = true) :
    (processLines b ls)[i]? = some l := by
  induction ls generalizing b i with
  | nil => simp at hget
  | cons x xs ih =>
    cases i with
    | zero =>
      rw [List.getElem?_cons_zero, Option.some.injEq] at hget
      subst hget
      unfold processLines
      rcases hcond with ht | hs
      · simp [ht]
      · have hb : b = true := by simpa [fenceStateBefore] using hs
        by_cases htog : isFenceToggle x = true
        · simp [htog]
        · simp [htog, hb]
    | succ i =>
      rw [List.getElem?_cons_succ] at hget
      unfold processLines
      have hcond2 :
          isFenceToggle l = true ∨
            fenceStateBefore (if isFenceToggle x then !b else b) xs i = true := by
        rcases hcond with ht | hs
        · exact Or.inl ht
        · exact Or.inr (by simpa [fenceStateBefore] using hs)
      by_cases htog : isFenceToggle x = true
      · simpa [htog] using ih (!b) i hget (by simpa [htog] using hcond2)
      · by_cases hb : b = true
        · simpa [htog, hb] using
            ih b i hget (by simpa [htog, hb] using hcond2)
        · simp only [Bool.not_eq_true] at hb
          simpa [htog, hb] using
            ih b i hget (by simpa [htog, hb] using hcond2)

/-- Claim C2: the fence state starts outside and flips exactly on
fence-toggle lines; every toggle line and every line while the state is
inside is emitted unchanged, so fenced regions (markers included) are
identical between input and output; in particular a fenced block full of
markdown-like syntax passes through the conversion untouched. -/
theorem fenced_regions_unchanged :
    (∀ (b : Bool) (l : List Char) (ls : List (List Char)),
      processLines b (l :: ls) =
        (if isFenceToggle l then l :: processLines (!b) ls
         else if b then l :: processLines b ls
         else rewriteLine l :: processLines b ls)) ∧
    (∀ (b : Bool) (ls : List (List Char)) (i : Nat) (l : List Char),
      ls[i]? = some l →
      (isFenceToggle l = true ∨ fenceStateBefore b ls i = true) →
      (processLines b ls)[i]? = some l) ∧
    markdown_to_slack_format
        (some "```\n# This is not a header\n**not bold**\n[link](url)\n```") =
      some "```\n# This is not a header\n**not bold**\n[link](url)\n```" :=
  ⟨fun b l ls => rfl, processLines_preserves, by decide⟩

/-- Witness for claim C2 at a concrete input: the toggle line of three
backticks is preserved at index zero. -/
theorem fenced_regions_unchanged_witness :
    ([['\x60', '\x60', '\x60']] : List (List Char))[0]? =
        some ['\x60', '\x60', '\x60'] ∧
      (processLines false [['\x60', '\x60', '\x60']])[0]? =
        some ['\x60', '\x60', '\x60'] :=
  ⟨by decide,
    fenced_regions_unchanged.2.1 false [['\x60', '\x60', '\x60']] 0
      ['\x60', '\x60', '\x60'] (by decide) (Or.inl (by decide))⟩

theorem header_rewrites (k : Nat) (w : Char) (rest : List Char)
    (hk1 : 1 ≤ k) (hk6 : k ≤ 6) (hw : w.isWhitespace = true) :
    headerStage (List.replicate k '#' ++ w :: rest) =
      (if k = 1 then '*' :: (trimList (w :: rest)).map Char.toUpper ++ ['*']
       else if k = 2 then '*' :: trimList (w :: rest) ++ ['*']
       else '_' :: trimList (w :: rest) ++ ['_']) := by
  have hwne : w ≠ '#' := by
    rcases whitespace_cases w hw with h | h | h | h <;> subst h <;> decide
  have htake : (List.replicate k '#' ++ w :: rest).takeWhile (· = '#') =
      List.replicate k '#' :=
    takeWhile_append_eq _ _ _
      (fun x hx => by simp [List.eq_of_mem_replicate hx]) (by simp [hwne])
  have hdrop : (List.replicate k '#' ++ w :: rest).dropWhile (· = '#') =
      w :: rest :=
    dropWhile_append_eq _ _ _
      (fun x hx => by simp [List.eq_of_mem_replicate hx]) (by simp [hwne])
  have hlev : headerLevel (List.replicate k '#' ++ w :: rest) = k := by
    simp [headerLevel, htake]
  have hmatch : headerMatches (List.replicate k '#' ++ w :: rest) = true := by
    simp [headerMatches, headerLevel, htake, hdrop, hk1, hk6, hw]
  simp [headerStage, hmatch, hlev, hdrop]

/-- Claim C3: outside fences, a line of 1 to 6 hashes, whitespace and text
rewrites to upper-cased bold for level 1, bold for level 2 and italic for
levels 3 to 6; non-matching lines pass through the header stage unchanged;
in particular the level-1 example converts as the test suite expects. -/
theorem header_stage_behavior :
    (∀ (k : Nat) (w : Char) (rest : List Char), 1 ≤ k → k ≤ 6 →
      w.isWhitespace = true →
      headerStage (List.replicate k '#' ++ w :: rest) =
        (if k = 1 then '*' :: (trimList (w :: rest)).map Char.toUpper ++ ['*']
         else if k = 2 then '*' :: trimList (w :: rest) ++ ['*']
         else '_' :: trimList (w :: rest) ++ ['_'])) ∧
    (∀ l, headerMatches l = false → headerStage l = l) ∧
    markdown_to_slack_format (some "# Main Header") = some "*MAIN HEADER*" :=
  ⟨header_rewrites, fun l h => by simp [headerStage, h], by decide⟩

/-- Witness for claim C3 at a concrete input: a level-3 heading becomes an
italic-wrapped line. -/
theorem header_stage_behavior_witness :
    (1 : Nat) ≤ 3 ∧ (3 : Nat) ≤ 6 ∧ (' ').isWhitespace = true ∧
    headerStage (List.replicate 3 '#' ++ ' ' :: ['a', 'b']) =
      '_' :: trimList (' ' :: ['a', 'b']) ++ ['_'] :=
  ⟨by decide, by decide, by decide,
    header_stage_behavior.1 3 ' ' ['a', 'b'] (by decide) (by decide)
      (by decide)⟩

theorem linkGo_shift (l : List Char) (k : Nat) :
    linkGo k l = linkGo 0 (l.drop k) := by
  induction l generalizing k with
  | nil => cases k <;> rfl
  | cons c cs ih =>
    cases k with
    | zero => rfl
    | succ k =>
      show linkGo k cs = _
      rw [ih k, List.drop_succ_cons]

theorem linkGo_append_of (pre rest : List Char) (h : ∀ c ∈ pre, c ≠ '[') :
    linkGo 0 (pre ++ rest) = pre ++ linkGo 0 rest := by
  induction pre with
  | nil => simp
  | cons c p ih =>
    have hc : c ≠ '[' := h c (List.mem_cons_self c p)
    have hm : linkMatch (c :: (p ++ rest)) = none := by simp [linkMatch, hc]
    show (match linkMatch (c :: (p ++ rest)) with
      | some (repl, m) => repl ++ linkGo (m - 1) (p ++ rest)
      | none => c :: linkGo 0 (p ++ rest)) = _
    rw [hm, ih fun y hy => h y (List.mem_cons_of_mem c hy)]
    rfl

theorem linkMatch_found_parts (text url R U : List Char)
    (hlent : 1 ≤ text.length) (hlenu : 1 ≤ url.length)
    (hfi : R.findIdx? (· = ']') = some text.length)
    (htake : R.take text.length = text)
    (hdrop : R.drop (text.length + 1) = '(' :: U)
    (hfj : U.findIdx? (· = ')') = some url.length)
    (hturl : U.take url.length = url) :
    linkMatch ('[' :: R) =
      some ('<' :: url ++ '|' :: text ++ ['>'],
        text.length + url.length + 4) := by
  simp [linkMatch, hfi, hlent, htake, hdrop, hfj, hlenu, hturl]

theorem drop_add_one {α : Type} (x : α) (l : List α) (n : Nat) :
    (x :: l).drop (n + 1) = l.drop n := rfl

theorem drop_append_cons {α : Type} (a : List α) (x : α) (b : List α) :
    (a ++ x :: b).drop (a.length + 1) = b := by
  induction a with
  | nil => simp
  | cons y a ih =>
    rw [List.cons_append, List.length_cons, drop_add_one]
    exact ih

theorem take_append_cons {α : Type} (a : List α) (x : α) (b : List α) :
    (a ++ x :: b).take a.length = a := List.take_left a (x :: b)

theorem drop_link_shape (text url post : List Char) :
    (text ++ (']' :: ('(' :: (url ++ (')' :: post))))).drop
      (text.length + url.length + 3) = post := by
  induction text with
  | nil =>
    simp only [List.nil_append, List.length_nil, Nat.zero_add]
    rw [show url.length + 3 = url.length + 1 + 1 + 1 from rfl,
      drop_add_one, drop_add_one]
    exact drop_append_cons url ')' post
  | cons c t ih =>
    rw [show (c :: t).length + url.length + 3 =
      t.length + url.length + 3 + 1 by simp [List.length_cons]; omega]
    rw [List.cons_append, drop_add_one]
    exact ih

theorem linkMatch_found (text url post : List Char)
    (htne : text ≠ []) (ht : ∀ c ∈ text, c ≠ ']')
    (hune : url ≠ []) (hu : ∀ c ∈ url, c ≠ ')') :
    linkMatch ('[' :: (text ++ (']' :: ('(' :: (url ++ (')' :: post)))))) =
      some ('<' :: (url ++ ('|' :: (text ++ ['>']))),
        text.length + url.length + 4) := by
  have hfi : (text ++ (']' :: ('(' :: (url ++ (')' :: post))))).findIdx?
      (· = ']') = some text.length :=
    findIdx_append_eq (fun x => decide (x = ']')) text ']'
      ('(' :: (url ++ (')' :: post))) (fun c hc => by simp [ht c hc])
      (by simp)
  have htake : (text ++ (']' :: ('(' :: (url ++ (')' :: post))))).take
      text.length = text :=
    take_append_cons text ']' ('(' :: (url ++ (')' :: post)))
  have hdrop : (text ++ (']' :: ('(' :: (url ++ (')' :: post))))).drop
      (text.length + 1) = '(' :: (url ++ (')' :: post)) :=
    drop_append_cons text ']' ('(' :: (url ++ (')' :: post)))
  have hfj : (url ++ (')' :: post)).findIdx? (· = ')') = some url.length :=
    findIdx_append_eq (fun x => decide (x = ')')) url ')' post
      (fun c hc => by simp [hu c hc]) (by simp)
  have hturl : (url ++ (')' :: post)).take url.length = url :=
    take_append_cons url ')' post
  have h0 := linkMatch_found_parts text url _ _ (List.length_pos.mpr htne)
    (List.length_pos.mpr hune) hfi htake hdrop hfj hturl
  simpa using h0

theorem link_rewrites (pre text url post : List Char)
    (hpre : ∀ c ∈ pre, c ≠ '[') (htne : text ≠ [])
    (ht : ∀ c ∈ text, c ≠ ']') (hune : url ≠ [])
    (hu : ∀ c ∈ url, c ≠ ')') :
    linkStage (pre ++ ('[' :: (text ++ (']' :: ('(' :: (url ++
        (')' :: post))))))) =
      pre ++ ('<' :: (url ++ ('|' :: (text ++ ('>' :: linkStage post))))) := by
  rw [linkStage, linkGo_append_of pre _ hpre]
  have hm := linkMatch_found text url post htne ht hune hu
  have hstep : linkGo 0 ('[' :: (text ++ (']' :: ('(' :: (url ++
      (')' :: post)))))) =
      ('<' :: (url ++ ('|' :: (text ++ ['>'])))) ++
        linkGo (text.length + url.length + 4 - 1)
          (text ++ (']' :: ('(' :: (url ++ (')' :: post))))) := by
    show (match linkMatch ('[' :: (text ++ (']' :: ('(' :: (url ++
        (')' :: post)))))) with
      | some (repl, m) =>
          repl ++ linkGo (m - 1)
            (text ++ (']' :: ('(' :: (url ++ (')' :: post)))))
      | none =>
          '[' :: linkGo 0
            (text ++ (']' :: ('(' :: (url ++ (')' :: post)))))) = _
    rw [hm]
  rw [hstep, linkGo_shift]
  have hdp : (text ++ (']' :: ('(' :: (url ++ (')' :: post))))).drop
      (text.length + url.length + 4 - 1) = post := by
    rw [show text.length + url.length + 4 - 1 =
      text.length + url.length + 3 from rfl]
    exact drop_link_shape text url post
  rw [hdp, linkStage]
  simp

/-- Claim C4: outside fences, every non-overlapping bracketed-text and
parenthesised-url occurrence is rewritten to the angle-bracket form; a
prefix without an opening bracket is copied, the scan continues after the
match, and a line with two independent links rewrites both. -/
theorem link_stage_behavior :
    (∀ pre text url post : List Char,
      (∀ c ∈ pre, c ≠ '[') → text ≠ [] → (∀ c ∈ text, c ≠ ']') →
      url ≠ [] → (∀ c ∈ url, c ≠ ')') →
      linkStage (pre ++ ('[' :: (text ++ (']' :: ('(' :: (url ++
          (')' :: post))))))) =
        pre ++ ('<' :: (url ++ ('|' :: (text ++ ('>' :: linkStage post)))))) ∧
    markdown_to_slack_format
        (some "See [link1](https://example1.com) and [link2](https://example2.com)") =
      some "See <https://example1.com|link1> and <https://example2.com|link2>" :=
  ⟨link_rewrites, by decide⟩

/-- Witness for claim C4 at a concrete input: a single minimal link with an
empty prefix and suffix. -/
theorem link_stage_behavior_witness :
    (['a'] : List Char) ≠ [] ∧ (['b'] : List Char) ≠ [] ∧
    linkStage (([] : List Char) ++
        ('[' :: (['a'] ++ (']' :: ('(' :: (['b'] ++ (')' :: []))))))) =
      [] ++ ('<' :: (['b'] ++ ('|' :: (['a'] ++ ('>' :: linkStage []))))) :=
  ⟨by decide, by decide,
    link_stage_behavior.1 [] ['a'] ['b'] [] (by decide) (by decide)
      (by decide) (by decide) (by decide)⟩

theorem list_rewrites (ws : List Char) (m w : Char) (rest : List Char)
    (hws : ∀ c ∈ ws, c.isWhitespace = true) (hm : isBulletMarker m = true)
    (hw : w.isWhitespace = true) :
    listStage (ws ++ m :: w :: rest) = ws ++ '•' :: ' ' :: rest := by
  have hmcase : m = '-' ∨ m = '*' ∨ m = '+' := by
    have h2 := hm
    simp only [isBulletMarker, Bool.or_eq_true, decide_eq_true_eq] at h2
    tauto
  have hmw : m.isWhitespace = false := by
    rcases hmcase with h | h | h <;> subst h <;> decide
  have htake := takeWhile_append_eq ws m (w :: rest) hws hmw
  have hdrop := dropWhile_append_eq ws m (w :: rest) hws hmw
  simp [listStage, htake, hdrop, hm, hw]

/-- Claim C5: outside fences, a line of leading whitespace, a single list
marker and at least one whitespace character has the marker plus its
following space replaced by the same leading whitespace, a bullet glyph and
one space, the rest of the line unaltered; indentation is preserved, as the
two-level list example shows end to end. -/
theorem list_stage_behavior :
    (∀ (ws : List Char) (m w : Char) (rest : List Char),
      (∀ c ∈ ws, c.isWhitespace = true) → isBulletMarker m = true →
      w.isWhitespace = true →
      listStage (ws ++ m :: w :: rest) = ws ++ '•' :: ' ' :: rest) ∧
    markdown_to_slack_format (some "- Item 1\n  - Subitem 1") =
      some "• Item 1\n  • Subitem 1" :=
  ⟨list_rewrites, by decide⟩

/-- Witness for claim C5 at a concrete input: an indented dash item. -/
theorem list_stage_behavior_witness :
    isBulletMarker '-' = true ∧ (' ').isWhitespace = true ∧
    listStage ([' '] ++ '-' :: ' ' :: ['x']) =
      [' '] ++ '•' :: ' ' :: ['x'] :=
  ⟨by decide, by decide,
    list_stage_behavior.1 [' '] '-' ' ' ['x'] (by decide) (by decide)
      (by decide)⟩

theorem take_add_one_cons {α : Type} (x : α) (l : List α) (n : Nat) :
    (x :: l).take (n + 1) = x :: l.take n := rfl

theorem findPairIdx_none (d : Char) (l : List Char)
    (h : ∀ x ∈ l, x ≠ d) : findPairIdx d l = none := by
  induction l with
  | nil => rfl
  | cons a tail ih =>
    cases tail with
    | nil => rfl
    | cons b rest =>
      have ha : a ≠ d := h a (List.mem_cons_self a _)
      have htail : ∀ x ∈ b :: rest, x ≠ d := fun x hx =>
        h x (List.mem_cons_of_mem a hx)
      show (if a = d && b = d then some 0
        else (findPairIdx d (b :: rest)).map (· + 1)) = none
      simp [ha, ih htail]

theorem findPairIdx_append (d : Char) (a b : List Char)
    (h : ∀ x ∈ a, x ≠ d) :
    findPairIdx d (a ++ (d :: (d :: b))) = some a.length := by
  induction a with
  | nil => simp [findPairIdx]
  | cons x a ih =>
    have hx : x ≠ d := h x (List.mem_cons_self x a)
    have ha : ∀ y ∈ a, y ≠ d := fun y hy => h y (List.mem_cons_of_mem x hy)
    have hres := ih ha
    cases a with
    | nil => simp [findPairIdx, hx]
    | cons y a2 =>
      simp only [List.cons_append] at hres ⊢
      show (if x = d && y = d then some 0
        else (findPairIdx d (y :: (a2 ++ (d :: (d :: b))))).map (· + 1)) =
          some (y :: a2).length.succ
      simp [hx, hres]

theorem boldGo_skip_all (d : Char) (l : List Char) (k : Nat)
    (h : l.length ≤ k) : boldGo d k l = [] := by
  induction l generalizing k with
  | nil => cases k <;> rfl
  | cons c cs ih =>
    cases k with
    | zero => simp at h
    | succ k =>
      show boldGo d k cs = []
      exact ih k (by simpa using h)

theorem protGo_skip_all (l : List Char) (k : Nat)
    (h : l.length ≤ k) : protGo k l = [] := by
  induction l generalizing k with
  | nil => cases k <;> rfl
  | cons c cs ih =>
    cases k with
    | zero => simp at h
    | succ k =>
      show protGo k cs = []
      exact ih k (by simpa using h)

theorem boldGo_id (d : Char) (l : List Char)
    (h : findPairIdx d l = none) : boldGo d 0 l = l := by
  induction l with
  | nil => rfl
  | cons c cs ih =>
    cases cs with
    | nil => rfl
    | cons b rest =>
      rw [show findPairIdx d (c :: b :: rest) =
        (if decide (c = d) && decide (b = d) then some 0
          else (findPairIdx d (b :: rest)).map (· + 1)) from rfl] at h
      have hsplit : (decide (c = d) && decide (b = d)) = false ∧
          findPairIdx d (b :: rest) = none := by
        by_cases hcond : (decide (c = d) && decide (b = d)) = true
        · rw [if_pos hcond] at h
          exact absurd h (by simp)
        · rw [if_neg hcond] at h
          exact ⟨by simpa using hcond, Option.map_eq_none'.mp h⟩
      have hbm : boldMatch d (c :: b :: rest) = none := by
        simp [boldMatch, hsplit.1]
      show (match boldMatch d (c :: b :: rest) with
        | some (repl, m) => repl ++ boldGo d (m - 1) (b :: rest)
        | none => c :: boldGo d 0 (b :: rest)) = c :: b :: rest
      rw [hbm, ih hsplit.2]

theorem boldGo_double (d : Char) (c : List Char) (hne : c ≠ [])
    (hc : ∀ x ∈ c, x ≠ d) :
    boldGo d 0 (d :: (d :: (c ++ [d, d]))) = '*' :: (c ++ ['*']) := by
  obtain ⟨c0, ctail, rfl⟩ : ∃ c0 ctail, c = c0 :: ctail := by
    cases c with
    | nil => exact absurd rfl hne
    | cons a b => exact ⟨a, b, rfl⟩
  have hfp : findPairIdx d (ctail ++ [d, d]) = some ctail.length :=
    findPairIdx_append d ctail []
      (fun x hx => hc x (List.mem_cons_of_mem c0 hx))
  have htk : (c0 :: (ctail ++ [d, d])).take (ctail.length + 1) =
      c0 :: ctail := by
    rw [take_add_one_cons, List.take_left ctail [d, d]]
  simp only [List.cons_append]
  have hbm : boldMatch d (d :: (d :: (c0 :: (ctail ++ [d, d])))) =
      some (('*' :: (c0 :: ctail)) ++ ['*'], ctail.length + 5) := by
    show (if decide (d = d) && decide (d = d) then
      (match c0 :: (ctail ++ [d, d]) with
        | _ :: rtail =>
          match findPairIdx d rtail with
          | some q =>
            some ('*' :: (c0 :: (ctail ++ [d, d])).take (q + 1) ++ ['*'],
              q + 5)
          | none => none
        | [] => none)
      else none) = _
    rw [if_pos (by simp)]
    show (match findPairIdx d (ctail ++ [d, d]) with
      | some q =>
        some ('*' :: (c0 :: (ctail ++ [d, d])).take (q + 1) ++ ['*'], q + 5)
      | none => none) = _
    rw [hfp]
    simp [htk]
  have hskip : boldGo d (ctail.length + 4)
      (d :: (c0 :: (ctail ++ [d, d]))) = [] := by
    refine boldGo_skip_all d _ _ ?_
    simp [List.length_cons, List.length_append]
  show (match boldMatch d (d :: (d :: (c0 :: (ctail ++ [d, d])))) with
    | some (repl, m) =>
        repl ++ boldGo d (m - 1) (d :: (c0 :: (ctail ++ [d, d])))
    | none => d :: boldGo d 0 (d :: (c0 :: (ctail ++ [d, d])))) = _
  rw [hbm]
  simp [hskip]

theorem boldGo_shift (d : Char) (l : List Char) (k : Nat) :
    boldGo d k l = boldGo d 0 (l.drop k) := by
  induction l generalizing k with
  | nil => cases k <;> rfl
  | cons c cs ih =>
    cases k with
    | zero => rfl
    | succ k =>
      show boldGo d k cs = _
      rw [ih k, List.drop_succ_cons]

theorem boldGo_append_of (d : Char) (pre rest : List Char)
    (h : ∀ c ∈ pre, c ≠ d) :
    boldGo d 0 (pre ++ rest) = pre ++ boldGo d 0 rest := by
  induction pre with
  | nil => simp
  | cons c p ih =>
    have hc : c ≠ d := h c (List.mem_cons_self c p)
    have hm : ∀ t : List Char, boldMatch d (c :: t) = none := by
      intro t
      cases t with
      | nil => rfl
      | cons b r2 => simp [boldMatch, hc]
    show (match boldMatch d (c :: (p ++ rest)) with
      | some (repl, m) => repl ++ boldGo d (m - 1) (p ++ rest)
      | none => c :: boldGo d 0 (p ++ rest)) = _
    rw [hm, ih fun y hy => h y (List.mem_cons_of_mem c hy)]
    rfl

theorem drop_bold_shape (c : List Char) (d : Char) (post : List Char) :
    (c ++ (d :: (d :: post))).drop (c.length + 2) = post := by
  induction c with
  | nil => rfl
  | cons x t ih =>
    rw [show (x :: t).length + 2 = t.length + 2 + 1 by
      simp [List.length_cons]]
    rw [List.cons_append, drop_add_one]
    exact ih

theorem boldGo_double_cont (d : Char) (c post : List Char) (hne : c ≠ [])
    (hc : ∀ x ∈ c, x ≠ d) :
    boldGo d 0 (d :: (d :: (c ++ (d :: (d :: post))))) =
      '*' :: (c ++ ('*' :: boldGo d 0 post)) := by
  obtain ⟨c0, ctail, rfl⟩ : ∃ c0 ctail, c = c0 :: ctail := by
    cases c with
    | nil => exact absurd rfl hne
    | cons a b => exact ⟨a, b, rfl⟩
  have hfp : findPairIdx d (ctail ++ (d :: (d :: post))) =
      some ctail.length :=
    findPairIdx_append d ctail post
      (fun x hx => hc x (List.mem_cons_of_mem c0 hx))
  have htk : (c0 :: (ctail ++ (d :: (d :: post)))).take (ctail.length + 1) =
      c0 :: ctail := by
    rw [take_add_one_cons, List.take_left ctail (d :: (d :: post))]
  simp only [List.cons_append]
  have hbm : boldMatch d
      (d :: (d :: (c0 :: (ctail ++ (d :: (d :: post)))))) =
      some (('*' :: (c0 :: ctail)) ++ ['*'], ctail.length + 5) := by
    show (if decide (d = d) && decide (d = d) then
      (match c0 :: (ctail ++ (d :: (d :: post))) with
        | _ :: rtail =>
          match findPairIdx d rtail with
          | some q =>
            some ('*' :: (c0 :: (ctail ++ (d :: (d :: post)))).take (q + 1)
              ++ ['*'], q + 5)
          | none => none
        | [] => none)
      else none) = _
    rw [if_pos (by simp)]
    show (match findPairIdx d (ctail ++ (d :: (d :: post))) with
      | some q =>
        some ('*' :: (c0 :: (ctail ++ (d :: (d :: post)))).take (q + 1)
          ++ ['*'], q + 5)
      | none => none) = _
    rw [hfp]
    simp [htk]
  have hdrop : (d :: (c0 :: (ctail ++ (d :: (d :: post))))).drop
      (ctail.length + 4) = post := by
    rw [show ctail.length + 4 = ctail.length + 3 + 1 from rfl, drop_add_one,
      show ctail.length + 3 = ctail.length + 2 + 1 from rfl, drop_add_one]
    exact drop_bold_shape ctail d post
  have hskip : boldGo d (ctail.length + 4)
      (d :: (c0 :: (ctail ++ (d :: (d :: post))))) = boldGo d 0 post := by
    rw [boldGo_shift, hdrop]
  show (match boldMatch d
      (d :: (d :: (c0 :: (ctail ++ (d :: (d :: post)))))) with
    | some (repl, m) =>
        repl ++ boldGo d (m - 1) (d :: (c0 :: (ctail ++ (d :: (d :: post)))))
    | none =>
        d :: boldGo d 0 (d :: (c0 :: (ctail ++ (d :: (d :: post)))))) = _
  rw [hbm]
  show (('*' :: (c0 :: ctail)) ++ ['*']) ++
      boldGo d (ctail.length + 5 - 1)
        (d :: (c0 :: (ctail ++ (d :: (d :: post))))) = _
  rw [show ctail.length + 5 - 1 = ctail.length + 4 from rfl, hskip]
  simp

theorem bold_pass_rewrites (d : Char) (pre c post : List Char)
    (hpre : ∀ x ∈ pre, x ≠ d) (hne : c ≠ []) (hc : ∀ x ∈ c, x ≠ d) :
    boldGo d 0 (pre ++ (d :: (d :: (c ++ (d :: (d :: post)))))) =
      pre ++ ('*' :: (c ++ ('*' :: boldGo d 0 post))) := by
  rw [boldGo_append_of d pre _ hpre, boldGo_double_cont d c post hne hc]

theorem protect_italic_restore (c : List Char) (hne : c ≠ [])
    (hc : ∀ x ∈ c, x ≠ '*') :
    restorePh (italGo 0 false (protGo 0 ('*' :: (c ++ ['*'])))) =
      '*' :: (c ++ ['*']) := by
  have hcontent : (c ++ ['*']).takeWhile (· ≠ '*') = c :=
    takeWhile_append_eq c '*' [] (fun x hx => by simp [hc x hx]) (by simp)
  have hdropstar : (c ++ ['*']).drop c.length = ['*'] :=
    List.drop_left c ['*']
  have hpm : protMatch ('*' :: (c ++ ['*'])) =
      some ('*' :: (c ++ ['*']), c.length + 2) := by
    show (if ('*' : Char) = '*' then
      (let content := (c ++ ['*']).takeWhile (· ≠ '*')
       if content.isEmpty then none
       else
         match (c ++ ['*']).drop content.length with
         | '*' :: _ => some ('*' :: content ++ ['*'], content.length + 2)
         | _ => none)
      else none) = _
    rw [if_pos rfl]
    show (if ((c ++ ['*']).takeWhile (· ≠ '*')).isEmpty then none
      else
        match (c ++ ['*']).drop
            ((c ++ ['*']).takeWhile (· ≠ '*')).length with
        | '*' :: _ =>
          some ('*' :: (c ++ ['*']).takeWhile (· ≠ '*') ++ ['*'],
            ((c ++ ['*']).takeWhile (· ≠ '*')).length + 2)
        | _ => none) = _
    rw [show ((c ++ ['*']).takeWhile (· ≠ '*')) = c from hcontent]
    rw [if_neg (by simp [List.isEmpty_iff, hne]), hdropstar]
    simp
  have hskip : protGo (c.length + 1) (c ++ ['*']) = [] := by
    refine protGo_skip_all _ _ ?_
    simp
  have hstep1 : protGo 0 ('*' :: (c ++ ['*'])) =
      [PChar.ph ('*' :: (c ++ ['*']))] := by
    show (match protMatch ('*' :: (c ++ ['*'])) with
      | some (captured, m) => PChar.ph captured :: protGo (m - 1) (c ++ ['*'])
      | none => PChar.chr '*' :: protGo 0 (c ++ ['*'])) = _
    rw [hpm]
    simp [hskip]
  have hstep2 : italGo 0 false [PChar.ph ('*' :: (c ++ ['*']))] =
      [PChar.ph ('*' :: (c ++ ['*']))] := by
    simp [italGo, italMatch, isAstP]
  rw [hstep1, hstep2]
  simp [restorePh]

theorem italGo_skip_span (content post : List PChar) (b : Bool) :
    italGo (content.length + 1) b (content ++ (PChar.chr '*' :: post)) =
      italGo 0 true post := by
  induction content generalizing b with
  | nil => rfl
  | cons p ct ih =>
    show italGo (ct.length + 1) (isAstP p) (ct ++ (PChar.chr '*' :: post)) =
      italGo 0 true post
    exact ih (isAstP p)

theorem italMatch_found (content post : List PChar) (hne : content ≠ [])
    (hcontent : ∀ p ∈ content, isAstP p = false)
    (hpost : ∀ q, post.head? = some q → isAstP q = false) :
    italMatch false (PChar.chr '*' :: (content ++ (PChar.chr '*' :: post))) =
      some ((PChar.chr '_' :: content) ++ [PChar.chr '_'],
        content.length + 2) := by
  have htw : (content ++ (PChar.chr '*' :: post)).takeWhile
      (fun q => !isAstP q) = content :=
    takeWhile_append_eq content (PChar.chr '*') post
      (fun p hp => by simp [hcontent p hp]) (by simp [isAstP])
  have hdropc : (content ++ (PChar.chr '*' :: post)).drop content.length =
      PChar.chr '*' :: post := List.drop_left content (PChar.chr '*' :: post)
  show (if isAstP (PChar.chr '*') && !false then
    (let ctw :=
      (content ++ (PChar.chr '*' :: post)).takeWhile (fun q => !isAstP q)
     if ctw.isEmpty then none
     else
       match (content ++ (PChar.chr '*' :: post)).drop ctw.length with
       | q :: qs =>
         if isAstP q then
           match qs with
           | q2 :: _ =>
             if isAstP q2 then none
             else some (PChar.chr '_' :: ctw ++ [PChar.chr '_'],
               ctw.length + 2)
           | [] => some (PChar.chr '_' :: ctw ++ [PChar.chr '_'],
               ctw.length + 2)
         else none
       | [] => none)
    else none) = _
  rw [if_pos (show (isAstP (PChar.chr '*') && !false) = true from by decide)]
  show (if ((content ++ (PChar.chr '*' :: post)).takeWhile
      (fun q => !isAstP q)).isEmpty then none
    else
      match (content ++ (PChar.chr '*' :: post)).drop
          ((content ++ (PChar.chr '*' :: post)).takeWhile
            (fun q => !isAstP q)).length with
      | q :: qs =>
        if isAstP q then
          match qs with
          | q2 :: _ =>
            if isAstP q2 then none
            else some (PChar.chr '_' ::
                ((content ++ (PChar.chr '*' :: post)).takeWhile
                  (fun q => !isAstP q)) ++ [PChar.chr '_'],
              ((content ++ (PChar.chr '*' :: post)).takeWhile
                (fun q => !isAstP q)).length + 2)
          | [] => some (PChar.chr '_' ::
                ((content ++ (PChar.chr '*' :: post)).takeWhile
                  (fun q => !isAstP q)) ++ [PChar.chr '_'],
              ((content ++ (PChar.chr '*' :: post)).takeWhile
                (fun q => !isAstP q)).length + 2)
        else none
      | [] => none) = _
  rw [show ((content ++ (PChar.chr '*' :: post)).takeWhile
    (fun q => !isAstP q)) = content from htw]
  rw [if_neg (by simp [List.isEmpty_iff, hne]), hdropc]
  show (if isAstP (PChar.chr '*') then
      match post with
      | q2 :: _ =>
        if isAstP q2 then none
        else some (PChar.chr '_' :: content ++ [PChar.chr '_'],
          content.length + 2)
      | [] => some (PChar.chr '_' :: content ++ [PChar.chr '_'],
          content.length + 2)
    else none) = _
  rw [if_pos (show isAstP (PChar.chr '*') = true from by decide)]
  cases post with
  | nil => rfl
  | cons q2 qs =>
    have hq2 : isAstP q2 = false := hpost q2 rfl
    show (if isAstP q2 then none
      else some (PChar.chr '_' :: content ++ [PChar.chr '_'],
        content.length + 2)) = _
    rw [if_neg (by simp [hq2])]

theorem italic_pass_rewrites (pre content post : List PChar)
    (hpre : ∀ p ∈ pre, isAstP p = false) (hne : content ≠ [])
    (hcontent : ∀ p ∈ content, isAstP p = false)
    (hpost : ∀ q, post.head? = some q → isAstP q = false) :
    italGo 0 false
        (pre ++ (PChar.chr '*' :: (content ++ (PChar.chr '*' :: post)))) =
      pre ++ (PChar.chr '_' ::
        (content ++ (PChar.chr '_' :: italGo 0 true post))) := by
  induction pre with
  | nil =>
    have him := italMatch_found content post hne hcontent hpost
    show (match italMatch false
        (PChar.chr '*' :: (content ++ (PChar.chr '*' :: post))) with
      | some (repl, m) =>
          repl ++ italGo (m - 1) (isAstP (PChar.chr '*'))
            (content ++ (PChar.chr '*' :: post))
      | none =>
          PChar.chr '*' :: italGo 0 (isAstP (PChar.chr '*'))
            (content ++ (PChar.chr '*' :: post))) = _
    rw [him]
    show ((PChar.chr '_' :: content) ++ [PChar.chr '_']) ++
        italGo (content.length + 2 - 1) (isAstP (PChar.chr '*'))
          (content ++ (PChar.chr '*' :: post)) = _
    rw [show content.length + 2 - 1 = content.length + 1 from rfl,
      show isAstP (PChar.chr '*') = true from by decide,
      italGo_skip_span content post true]
    simp
  | cons p0 ps ih =>
    have hp0 : isAstP p0 = false := hpre p0 (List.mem_cons_self p0 ps)
    have hm : italMatch false (p0 :: (ps ++ (PChar.chr '*' ::
        (content ++ (PChar.chr '*' :: post))))) = none := by
      simp [italMatch, hp0]
    rw [List.cons_append]
    show (match italMatch false (p0 :: (ps ++ (PChar.chr '*' ::
        (content ++ (PChar.chr '*' :: post))))) with
      | some (repl, m) =>
          repl ++ italGo (m - 1) (isAstP p0)
            (ps ++ (PChar.chr '*' :: (content ++ (PChar.chr '*' :: post))))
      | none =>
          p0 :: italGo 0 (isAstP p0)
            (ps ++ (PChar.chr '*' ::
              (content ++ (PChar.chr '*' :: post))))) = _
    rw [hm, hp0, ih (fun p hp => hpre p (List.mem_cons_of_mem p0 hp))]
    rfl

theorem emphasis_bold_ast (c : List Char) (hne : c ≠ [])
    (hc : ∀ x ∈ c, x ≠ '*' ∧ x ≠ '_') :
    emphasisStage ('*' :: ('*' :: (c ++ ['*', '*']))) =
      '*' :: (c ++ ['*']) := by
  have h1 : boldGo '*' 0 ('*' :: ('*' :: (c ++ ['*', '*']))) =
      '*' :: (c ++ ['*']) :=
    boldGo_double '*' c hne (fun x hx => (hc x hx).1)
  have hall : ∀ x ∈ '*' :: (c ++ ['*']), x ≠ '_' := by
    intro x hx
    rcases List.mem_cons.mp hx with rfl | hx2
    · decide
    rcases List.mem_append.mp hx2 with hx3 | hx4
    · exact (hc x hx3).2
    · simp at hx4; subst hx4; decide
  have h2 : boldGo '_' 0 ('*' :: (c ++ ['*'])) = '*' :: (c ++ ['*']) :=
    boldGo_id '_' _ (findPairIdx_none '_' _ hall)
  rw [emphasisStage, h1, h2]
  exact protect_italic_restore c hne (fun x hx => (hc x hx).1)

theorem emphasis_bold_und (c : List Char) (hne : c ≠ [])
    (hc : ∀ x ∈ c, x ≠ '*' ∧ x ≠ '_') :
    emphasisStage ('_' :: ('_' :: (c ++ ['_', '_']))) =
      '*' :: (c ++ ['*']) := by
  have hall : ∀ x ∈ '_' :: ('_' :: (c ++ ['_', '_'])), x ≠ '*' := by
    intro x hx
    rcases List.mem_cons.mp hx with rfl | hx2
    · decide
    rcases List.mem_cons.mp hx2 with rfl | hx3
    · decide
    rcases List.mem_append.mp hx3 with hx4 | hx5
    · exact (hc x hx4).1
    · rcases List.mem_cons.mp hx5 with rfl | hx6
      · decide
      · simp at hx6; subst hx6; decide
  have h1 : boldGo '*' 0 ('_' :: ('_' :: (c ++ ['_', '_']))) =
      '_' :: ('_' :: (c ++ ['_', '_'])) :=
    boldGo_id '*' _ (findPairIdx_none '*' _ hall)
  have h2 : boldGo '_' 0 ('_' :: ('_' :: (c ++ ['_', '_']))) =
      '*' :: (c ++ ['*']) :=
    boldGo_double '_' c hne (fun x hx => (hc x hx).2)
  rw [emphasisStage, h1, h2]
  exact protect_italic_restore c hne (fun x hx => (hc x hx).1)

/-- Claim C1: outside fences the emphasis rewriter works in two passes.
Bold pass: at any position of the line (delimiter-free characters before it
are copied unchanged) a non-greedy double-asterisk or double-underscore
span becomes a single-asterisk span and the scan continues to the right of
the match, so every such span of the line is rewritten.  Italic pass: at
any position (non-asterisk emphasis-stage characters before it are copied
unchanged) a single-asterisk span whose delimiting asterisks are not
adjacent to another asterisk becomes an underscore-wrapped span, the scan
again continuing to the right, so every remaining qualifying span is
rewritten.  The bold spans just produced are protected from the italic
pass, so a bold span of plain text survives the whole stage
asterisk-wrapped, a two-span line rewrites both spans, a leftover single
asterisk after a bold span yields an italic rewrite, and both bold example
lines convert to the same asterisk-bold line. -/
theorem emphasis_stage_behavior :
    (∀ pre c post : List Char, (∀ x ∈ pre, x ≠ '*') → c ≠ [] →
        (∀ x ∈ c, x ≠ '*') →
      boldGo '*' 0 (pre ++ ('*' :: ('*' :: (c ++ ('*' :: ('*' :: post)))))) =
        pre ++ ('*' :: (c ++ ('*' :: boldGo '*' 0 post)))) ∧
    (∀ pre c post : List Char, (∀ x ∈ pre, x ≠ '_') → c ≠ [] →
        (∀ x ∈ c, x ≠ '_') →
      boldGo '_' 0 (pre ++ ('_' :: ('_' :: (c ++ ('_' :: ('_' :: post)))))) =
        pre ++ ('*' :: (c ++ ('*' :: boldGo '_' 0 post)))) ∧
    (∀ pre content post : List PChar, (∀ p ∈ pre, isAstP p = false) →
        content ≠ [] → (∀ p ∈ content, isAstP p = false) →
        (∀ q, post.head? = some q → isAstP q = false) →
      italGo 0 false
          (pre ++ (PChar.chr '*' :: (content ++ (PChar.chr '*' :: post)))) =
        pre ++ (PChar.chr '_' ::
          (content ++ (PChar.chr '_' :: italGo 0 true post)))) ∧
    (∀ c : List Char, c ≠ [] → (∀ x ∈ c, x ≠ '*' ∧ x ≠ '_') →
      emphasisStage ('*' :: ('*' :: (c ++ ['*', '*']))) =
          '*' :: (c ++ ['*']) ∧
        emphasisStage ('_' :: ('_' :: (c ++ ['_', '_']))) =
          '*' :: (c ++ ['*'])) ∧
    emphasisStage "**a** and **b**".data = "*a* and *b*".data ∧
    emphasisStage "**a* b*".data = "_*a* b_".data ∧
    markdown_to_slack_format (some "This is **bold text** in markdown") =
      some "This is *bold text* in markdown" ∧
    markdown_to_slack_format (some "This is __bold text__ in markdown") =
      some "This is *bold text* in markdown" :=
  ⟨fun pre c post h1 h2 h3 => bold_pass_rewrites '*' pre c post h1 h2 h3,
   fun pre c post h1 h2 h3 => bold_pass_rewrites '_' pre c post h1 h2 h3,
   fun pre content post h1 h2 h3 h4 =>
     italic_pass_rewrites pre content post h1 h2 h3 h4,
   fun c h1 h2 => ⟨emphasis_bold_ast c h1 h2, emphasis_bold_und c h1 h2⟩,
   by decide, by decide, by decide, by decide⟩

/-- Witness for claim C1 at concrete inputs: a one-character bold span with
surrounding text for the bold pass, a one-character span between ordinary
characters for the italic pass, and a one-character span for the
whole-stage conjunct. -/
theorem emphasis_stage_behavior_witness :
    ((∀ x ∈ "x ".data, x ≠ '*') ∧ (['b'] : List Char) ≠ [] ∧
      (∀ x ∈ (['b'] : List Char), x ≠ '*') ∧
      boldGo '*' 0 ("x ".data ++ ('*' :: ('*' :: (['b'] ++
          ('*' :: ('*' :: " y".data)))))) =
        "x ".data ++ ('*' :: (['b'] ++ ('*' :: boldGo '*' 0 " y".data)))) ∧
    italGo 0 false ([PChar.chr 'a'] ++ (PChar.chr '*' ::
        ([PChar.chr 'b'] ++ (PChar.chr '*' :: ([] : List PChar))))) =
      [PChar.chr 'a'] ++ (PChar.chr '_' :: ([PChar.chr 'b'] ++
        (PChar.chr '_' :: italGo 0 true ([] : List PChar)))) ∧
    emphasisStage ('*' :: ('*' :: (['b'] ++ ['*', '*']))) =
      '*' :: (['b'] ++ ['*']) :=
  ⟨⟨by decide, by decide, by decide,
    emphasis_stage_behavior.1 "x ".data ['b'] " y".data
      (by decide) (by decide) (by decide)⟩,
   emphasis_stage_behavior.2.2.1 [PChar.chr 'a'] [PChar.chr 'b'] []
     (by decide) (by decide) (by decide) (fun q hq => Option.noConfusion hq),
   (emphasis_stage_behavior.2.2.2.1 ['b'] (by decide) (by decide)).1⟩

theorem processLines_length (b : Bool) (ls : List (List Char)) :
    (processLines b ls).length = ls.length := by
  induction ls generalizing b with
  | nil => rfl
  | cons l ls ih =>
    unfold processLines
    by_cases ht : isFenceToggle l = true
    · simp [ht, ih]
    · by_cases hb : b = true
      · simp [ht, hb, ih]
      · simp only [Bool.not_eq_true] at hb
        simp [ht, hb, ih]

theorem mem_linesOf_no_nl (cs : List Char) (l : List Char)
    (hl : l ∈ linesOf cs) : '\n' ∉ l := by
  induction cs generalizing l with
  | nil =>
    have hl2 : l = [] := by simpa [linesOf, splitNl] using hl
    subst hl2
    simp
  | cons c cs ih =>
    unfold linesOf splitNl at hl
    by_cases hc : c = '\n'
    · simp only [hc, if_pos rfl] at hl
      rcases List.mem_cons.mp hl with rfl | h2
      · simp
      · exact ih l h2
    · simp only [if_neg hc] at hl
      rcases List.mem_cons.mp hl with rfl | h2
      · intro hmem
        rcases List.mem_cons.mp hmem with hh | htl
        · exact hc hh.symm
        · exact ih (splitNl cs).1 (List.mem_cons_self _ _) htl
      · exact ih l (List.mem_cons_of_mem _ h2)

theorem splitNl_no_nl (l : List Char) (h : '\n' ∉ l) :
    splitNl l = (l, []) := by
  induction l with
  | nil => rfl
  | cons c cs ih =>
    have hc : c ≠ '\n' := fun hx => h (hx ▸ List.mem_cons_self c cs)
    have hcs : '\n' ∉ cs := fun hx => h (List.mem_cons_of_mem c hx)
    unfold splitNl
    rw [ih hcs]
    simp [hc]

theorem splitNl_append_nl (l rest : List Char) (h : '\n' ∉ l) :
    splitNl (l ++ '\n' :: rest) =
      (l, (splitNl rest).1 :: (splitNl rest).2) := by
  induction l with
  | nil => simp [splitNl]
  | cons c cs ih =>
    have hc : c ≠ '\n' := fun hx => h (hx ▸ List.mem_cons_self c cs)
    have hcs : '\n' ∉ cs := fun hx => h (List.mem_cons_of_mem c hx)
    rw [List.cons_append]
    rw [show splitNl (c :: (cs ++ '\n' :: rest)) =
      (if c = '\n' then
        ([], (splitNl (cs ++ '\n' :: rest)).1 ::
          (splitNl (cs ++ '\n' :: rest)).2)
      else (c :: (splitNl (cs ++ '\n' :: rest)).1,
        (splitNl (cs ++ '\n' :: rest)).2)) from rfl]
    rw [if_neg hc, ih hcs]

theorem linesOf_unlines (ls : List (List Char)) (l : List Char)
    (hl : '\n' ∉ l) (hls : ∀ x ∈ ls, '\n' ∉ x) :
    linesOf (unlines (l :: ls)) = l :: ls := by
  induction ls generalizing l with
  | nil =>
    show linesOf (unlines [l]) = [l]
    rw [show unlines [l] = l from rfl]
    unfold linesOf
    rw [splitNl_no_nl l hl]
  | cons l2 ls2 ih =>
    show linesOf (l ++ '\n' :: unlines (l2 :: ls2)) = l :: l2 :: ls2
    unfold linesOf
    rw [splitNl_append_nl _ _ hl]
    have h2 := ih l2 (hls l2 (List.mem_cons_self _ _))
      (fun x hx => hls x (List.mem_cons_of_mem _ hx))
    unfold linesOf at h2
    rw [show (splitNl (unlines (l2 :: ls2))).1 ::
        (splitNl (unlines (l2 :: ls2))).2 = l2 :: ls2 from h2]

theorem ofNat_ne_nl (n : Nat) (h1 : 65 ≤ n) (h2 : n ≤ 90) :
    Char.ofNat n ≠ '\n' := by
  interval_cases n <;> decide

theorem toUpper_ne_nl (c : Char) (h : c ≠ '\n') : Char.toUpper c ≠ '\n' := by
  intro hu
  simp only [Char.toUpper] at hu
  split at hu
  next hcond =>
    exact ofNat_ne_nl _ (by omega) (by omega) hu
  next => exact h hu

theorem mem_trimList {x : Char} {l : List Char} (h : x ∈ trimList l) :
    x ∈ l := by
  unfold trimList at h
  have h1 := List.dropWhile_subset _ h
  rw [List.mem_reverse] at h1
  have h2 := List.dropWhile_subset _ h1
  rw [List.mem_reverse] at h2
  exact h2

theorem headerStage_no_nl (l : List Char) (h : '\n' ∉ l) :
    '\n' ∉ headerStage l := by
  have htext : '\n' ∉ trimList (l.dropWhile (· = '#')) := fun hx =>
    h (List.dropWhile_subset _ (mem_trimList hx))
  unfold headerStage
  by_cases hm : headerMatches l
  · rw [if_pos hm]
    by_cases h1 : headerLevel l = 1
    · rw [if_pos h1]
      intro hmem
      rcases List.mem_cons.mp hmem with hh | h2
      · exact absurd hh.symm (by decide)
      rcases List.mem_append.mp h2 with h3 | h4
      · rcases List.mem_map.mp h3 with ⟨c, hc, hceq⟩
        exact toUpper_ne_nl c
          (fun hx => htext (hx ▸ hc)) (hceq ▸ rfl)
      · simp at h4
    · rw [if_neg h1]
      by_cases h2 : headerLevel l = 2
      · rw [if_pos h2]
        intro hmem
        rcases List.mem_cons.mp hmem with hh | hrest
        · exact absurd hh.symm (by decide)
        rcases List.mem_append.mp hrest with h3 | h4
        · exact htext h3
        · simp at h4
      · rw [if_neg h2]
        intro hmem
        rcases List.mem_cons.mp hmem with hh | hrest
        · exact absurd hh.symm (by decide)
        rcases List.mem_append.mp hrest with h3 | h4
        · exact htext h3
        · simp at h4
  · rw [if_neg hm]
    exact h

theorem linkMatch_no_nl (l repl : List Char) (m : Nat)
    (hm : linkMatch l = some (repl, m)) (h : '\n' ∉ l) : '\n' ∉ repl := by
  cases l with
  | nil => exact absurd hm (by simp [linkMatch])
  | cons c rest =>
    have hrest : '\n' ∉ rest := fun hx => h (List.mem_cons_of_mem c hx)
    simp only [linkMatch] at hm
    split at hm <;> try exact Option.noConfusion hm
    split at hm <;> try exact Option.noConfusion hm
    split at hm <;> try exact Option.noConfusion hm
    rename_i i hfind h1i
    split at hm <;> try exact Option.noConfusion hm
    rename_i rest2 hdropeq
    split at hm <;> try exact Option.noConfusion hm
    split at hm <;> try exact Option.noConfusion hm
    rename_i j hfind2 h1j
    rw [Option.some.injEq, Prod.mk.injEq] at hm
    obtain ⟨hrepl, -⟩ := hm
    subst hrepl
    have hrest2 : '\n' ∉ rest2 := by
      intro hx
      have hx2 : ('\n' : Char) ∈ '(' :: rest2 := List.mem_cons_of_mem _ hx
      rw [← hdropeq] at hx2
      exact hrest (List.mem_of_mem_drop hx2)
    have hA : ∀ n, '\n' ∉ List.take n rest2 := fun n hx =>
      hrest2 (List.mem_of_mem_take hx)
    have hB : ∀ n, '\n' ∉ List.take n rest := fun n hx =>
      hrest (List.mem_of_mem_take hx)
    simp [List.mem_cons, List.mem_append, hA, hB]

theorem linkGo_no_nl (l : List Char) (k : Nat) (h : '\n' ∉ l) :
    '\n' ∉ linkGo k l := by
  induction l generalizing k with
  | nil => cases k <;> simp [linkGo]
  | cons c cs ih =>
    have hcs : '\n' ∉ cs := fun hx => h (List.mem_cons_of_mem c hx)
    have hc : c ≠ '\n' := fun hx => h (hx ▸ List.mem_cons_self c cs)
    cases k with
    | succ k =>
      show '\n' ∉ linkGo k cs
      exact ih k hcs
    | zero =>
      rw [show linkGo 0 (c :: cs) =
        (match linkMatch (c :: cs) with
          | some (repl, m) => repl ++ linkGo (m - 1) cs
          | none => c :: linkGo 0 cs) from rfl]
      cases hmatch : linkMatch (c :: cs) with
      | none =>
        show '\n' ∉ c :: linkGo 0 cs
        intro hmem
        rcases List.mem_cons.mp hmem with hh | h2
        · exact hc hh.symm
        · exact ih 0 hcs h2
      | some pr =>
        obtain ⟨repl, m⟩ := pr
        show '\n' ∉ repl ++ linkGo (m - 1) cs
        intro hmem
        rcases List.mem_append.mp hmem with h2 | h3
        · exact linkMatch_no_nl (c :: cs) repl m hmatch h h2
        · exact ih (m - 1) hcs h3

theorem boldMatch_no_nl (d : Char) (l repl : List Char) (m : Nat)
    (hm : boldMatch d l = some (repl, m)) (h : '\n' ∉ l) : '\n' ∉ repl := by
  cases l with
  | nil => exact absurd hm (by simp [boldMatch])
  | cons a l2 =>
    cases l2 with
    | nil => exact absurd hm (by simp [boldMatch])
    | cons b rest =>
      have hrest : '\n' ∉ b :: rest := fun hx =>
        h (List.mem_cons_of_mem a hx)
      simp only [boldMatch] at hm
      split at hm <;> try exact Option.noConfusion hm
      split at hm <;> try exact Option.noConfusion hm
      rename_i r0 rtail
      split at hm <;> try exact Option.noConfusion hm
      rename_i q hfp
      rw [Option.some.injEq, Prod.mk.injEq] at hm
      obtain ⟨hrepl, -⟩ := hm
      subst hrepl
      have hr2 : '\n' ∉ r0 :: rtail := fun hx =>
        hrest (List.mem_cons_of_mem b hx)
      have hrt : '\n' ∉ rtail := fun hx =>
        hr2 (List.mem_cons_of_mem r0 hx)
      have hr0 : ¬ ('\n' : Char) = r0 := fun hx =>
        hr2 (hx ▸ List.mem_cons_self r0 rtail)
      have htq : '\n' ∉ List.take q rtail := fun hx =>
        hrt (List.mem_of_mem_take hx)
      have htq1 : '\n' ∉ List.take (q + 1) (r0 :: rtail) := fun hx =>
        hr2 (List.mem_of_mem_take hx)
      simp [List.mem_cons, List.mem_append, hr0, htq, htq1]

theorem boldGo_no_nl (d : Char) (l : List Char) (k : Nat) (h : '\n' ∉ l) :
    '\n' ∉ boldGo d k l := by
  induction l generalizing k with
  | nil => cases k <;> simp [boldGo]
  | cons c cs ih =>
    have hcs : '\n' ∉ cs := fun hx => h (List.mem_cons_of_mem c hx)
    have hc : c ≠ '\n' := fun hx => h (hx ▸ List.mem_cons_self c cs)
    cases k with
    | succ k =>
      show '\n' ∉ boldGo d k cs
      exact ih k hcs
    | zero =>
      rw [show boldGo d 0 (c :: cs) =
        (match boldMatch d (c :: cs) with
          | some (repl, m) => repl ++ boldGo d (m - 1) cs
          | none => c :: boldGo d 0 cs) from rfl]
      cases hmatch : boldMatch d (c :: cs) with
      | none =>
        show '\n' ∉ c :: boldGo d 0 cs
        intro hmem
        rcases List.mem_cons.mp hmem with hh | h2
        · exact hc hh.symm
        · exact ih 0 hcs h2
      | some pr =>
        obtain ⟨repl, m⟩ := pr
        show '\n' ∉ repl ++ boldGo d (m - 1) cs
        intro hmem
        rcases List.mem_append.mp hmem with h2 | h3
        · exact boldMatch_no_nl d (c :: cs) repl m hmatch h h2
        · exact ih (m - 1) hcs h3

/-- No-newline invariant for emphasis-stage characters. -/
def pNoNl : PChar → Prop
  | .chr c => c ≠ '\n'
  | .ph s => '\n' ∉ s

theorem protMatch_no_nl (l cap : List Char) (m : Nat)
    (hm : protMatch l = some (cap, m)) (h : '\n' ∉ l) : '\n' ∉ cap := by
  cases l with
  | nil => exact absurd hm (by simp [protMatch])
  | cons c rest =>
    have hrest : '\n' ∉ rest := fun hx => h (List.mem_cons_of_mem c hx)
    have htw : '\n' ∉ rest.takeWhile (· ≠ '*') := fun hx =>
      hrest (List.takeWhile_subset _ hx)
    simp only [protMatch] at hm
    split at hm <;> try exact Option.noConfusion hm
    split at hm <;> try exact Option.noConfusion hm
    split at hm <;> try exact Option.noConfusion hm
    rw [Option.some.injEq, Prod.mk.injEq] at hm
    obtain ⟨hcap, -⟩ := hm
    subst hcap
    simp only [List.mem_cons, List.mem_append, not_or]
    exact ⟨⟨by decide, htw⟩, ⟨by decide, by simp⟩⟩

theorem protGo_no_nl (l : List Char) (k : Nat) (h : '\n' ∉ l) :
    ∀ p ∈ protGo k l, pNoNl p := by
  induction l generalizing k with
  | nil => cases k <;> simp [protGo]
  | cons c cs ih =>
    have hcs : '\n' ∉ cs := fun hx => h (List.mem_cons_of_mem c hx)
    have hc : c ≠ '\n' := fun hx => h (hx ▸ List.mem_cons_self c cs)
    cases k with
    | succ k =>
      show ∀ p ∈ protGo k cs, pNoNl p
      exact ih k hcs
    | zero =>
      rw [show protGo 0 (c :: cs) =
        (match protMatch (c :: cs) with
          | some (captured, m) => .ph captured :: protGo (m - 1) cs
          | none => .chr c :: protGo 0 cs) from rfl]
      cases hmatch : protMatch (c :: cs) with
      | none =>
        show ∀ p ∈ PChar.chr c :: protGo 0 cs, pNoNl p
        intro p hp
        rcases List.mem_cons.mp hp with rfl | hp2
        · exact hc
        · exact ih 0 hcs p hp2
      | some pr =>
        obtain ⟨cap, m⟩ := pr
        show ∀ p ∈ PChar.ph cap :: protGo (m - 1) cs, pNoNl p
        intro p hp
        rcases List.mem_cons.mp hp with rfl | hp2
        · exact protMatch_no_nl (c :: cs) cap m hmatch h
        · exact ih (m - 1) hcs p hp2

theorem italMatch_no_nl (b : Bool) (l repl : List PChar) (m : Nat)
    (hm : italMatch b l = some (repl, m)) (h : ∀ p ∈ l, pNoNl p) :
    ∀ p ∈ repl, pNoNl p := by
  cases l with
  | nil => exact absurd hm (by simp [italMatch])
  | cons p0 ps =>
    have hps : ∀ p ∈ ps, pNoNl p := fun p hp =>
      h p (List.mem_cons_of_mem p0 hp)
    have htw : ∀ p ∈ ps.takeWhile (fun q => !isAstP q), pNoNl p :=
      fun p hp => hps p (List.takeWhile_subset _ hp)
    have hfin : ∀ p ∈ ((PChar.chr '_' ::
        ps.takeWhile (fun q => !isAstP q)) ++ [PChar.chr '_'] :
          List PChar), pNoNl p := by
      intro p hp
      rcases List.mem_append.mp hp with h2 | h3
      · rcases List.mem_cons.mp h2 with rfl | h4
        · show ('_' : Char) ≠ '\n'
          decide
        · exact htw p h4
      · have hpu : p = PChar.chr '_' := by simpa using h3
        subst hpu
        show ('_' : Char) ≠ '\n'
        decide
    simp only [italMatch] at hm
    split at hm <;> try exact Option.noConfusion hm
    all_goals try (split at hm <;> try exact Option.noConfusion hm)
    all_goals try (split at hm <;> try exact Option.noConfusion hm)
    all_goals try (split at hm <;> try exact Option.noConfusion hm)
    all_goals try (split at hm <;> try exact Option.noConfusion hm)
    all_goals try (split at hm <;> try exact Option.noConfusion hm)
    all_goals
      (rw [Option.some.injEq, Prod.mk.injEq] at hm;
       obtain ⟨hrepl, -⟩ := hm;
       subst hrepl;
       exact hfin)

theorem italGo_no_nl (l : List PChar) (k : Nat) (b : Bool)
    (h : ∀ p ∈ l, pNoNl p) : ∀ p ∈ italGo k b l, pNoNl p := by
  induction l generalizing k b with
  | nil => cases k <;> simp [italGo]
  | cons p0 ps ih =>
    have hps : ∀ p ∈ ps, pNoNl p := fun p hp =>
      h p (List.mem_cons_of_mem p0 hp)
    have hp0 : pNoNl p0 := h p0 (List.mem_cons_self p0 ps)
    cases k with
    | succ k =>
      show ∀ p ∈ italGo k (isAstP p0) ps, pNoNl p
      exact ih k _ hps
    | zero =>
      rw [show italGo 0 b (p0 :: ps) =
        (match italMatch b (p0 :: ps) with
          | some (repl, m) => repl ++ italGo (m - 1) (isAstP p0) ps
          | none => p0 :: italGo 0 (isAstP p0) ps) from rfl]
      cases hmatch : italMatch b (p0 :: ps) with
      | none =>
        show ∀ p ∈ p0 :: italGo 0 (isAstP p0) ps, pNoNl p
        intro p hp
        rcases List.mem_cons.mp hp with rfl | hp2
        · exact hp0
        · exact ih 0 _ hps p hp2
      | some pr =>
        obtain ⟨repl, m⟩ := pr
        show ∀ p ∈ repl ++ italGo (m - 1) (isAstP p0) ps, pNoNl p
        intro p hp
        rcases List.mem_append.mp hp with h2 | h3
        · exact italMatch_no_nl b (p0 :: ps) repl m hmatch h p h2
        · exact ih (m - 1) _ hps p h3

theorem restorePh_no_nl (ps : List PChar) (h : ∀ p ∈ ps, pNoNl p) :
    '\n' ∉ restorePh ps := by
  induction ps with
  | nil => simp [restorePh]
  | cons p0 ps ih =>
    have hps : ∀ p ∈ ps, pNoNl p := fun p hp =>
      h p (List.mem_cons_of_mem p0 hp)
    have hp0 : pNoNl p0 := h p0 (List.mem_cons_self p0 ps)
    cases p0 with
    | chr c =>
      show '\n' ∉ c :: restorePh ps
      intro hmem
      rcases List.mem_cons.mp hmem with hh | h2
      · exact hp0 hh.symm
      · exact ih hps h2
    | ph s =>
      show '\n' ∉ s ++ restorePh ps
      intro hmem
      rcases List.mem_append.mp hmem with h2 | h3
      · exact hp0 h2
      · exact ih hps h3

theorem emphasisStage_no_nl (l : List Char) (h : '\n' ∉ l) :
    '\n' ∉ emphasisStage l :=
  restorePh_no_nl _
    (italGo_no_nl _ 0 false
      (protGo_no_nl _ 0
        (boldGo_no_nl '_' _ 0 (boldGo_no_nl '*' _ 0 h))))

theorem listStage_no_nl (l : List Char) (h : '\n' ∉ l) :
    '\n' ∉ listStage l := by
  unfold listStage
  split
  next m w rest heq =>
    split
    · intro hmem
      rcases List.mem_append.mp hmem with h1 | h2
      · exact h (List.takeWhile_subset _ h1)
      rcases List.mem_cons.mp h2 with hh | h3
      · exact absurd hh (by decide)
      rcases List.mem_cons.mp h3 with hh | h4
      · exact absurd hh (by decide)
      · have hmem2 : ('\n' : Char) ∈ l.dropWhile Char.isWhitespace := by
          rw [heq]
          exact List.mem_cons_of_mem _ (List.mem_cons_of_mem _ h4)
        exact h (List.dropWhile_subset _ hmem2)
    · exact h
  next => exact h

theorem rewriteLine_no_nl (l : List Char) (h : '\n' ∉ l) :
    '\n' ∉ rewriteLine l :=
  listStage_no_nl _ (emphasisStage_no_nl _ (linkGo_no_nl _ 0
    (headerStage_no_nl _ h)))

theorem processLines_no_nl (b : Bool) (ls : List (List Char))
    (h : ∀ l ∈ ls, '\n' ∉ l) :
    ∀ l ∈ processLines b ls, '\n' ∉ l := by
  induction ls generalizing b with
  | nil => simp [processLines]
  | cons x xs ih =>
    have hx : '\n' ∉ x := h x (List.mem_cons_self x xs)
    have hxs : ∀ l ∈ xs, '\n' ∉ l := fun l hl =>
      h l (List.mem_cons_of_mem x hl)
    unfold processLines
    by_cases ht : isFenceToggle x = true
    · rw [if_pos ht]
      intro l hl
      rcases List.mem_cons.mp hl with rfl | h2
      · exact hx
      · exact ih (!b) hxs l h2
    · rw [if_neg ht]
      by_cases hb : b = true
      · rw [if_pos hb]
        intro l hl
        rcases List.mem_cons.mp hl with rfl | h2
        · exact hx
        · exact ih b hxs l h2
      · rw [if_neg hb]
        intro l hl
        rcases List.mem_cons.mp hl with rfl | h2
        · exact rewriteLine_no_nl x hx
        · exact ih b hxs l h2

/-- Claim C7: for every string input the conversion returns a single string
with the same number of lines as the input, joined with the same newline
separator convention the input was split on. -/
theorem line_count_preserved (s : String) :
    (markdown_to_slack_format (some s)).map
        (fun r => (linesOf r.data).length) =
      some ((linesOf s.data).length) := by
  have hmk : markdown_to_slack_format (some s) =
      some (String.mk (unlines (processLines false (linesOf s.data)))) := rfl
  rw [hmk, Option.map_some']
  have hdata : (String.mk (unlines
      (processLines false (linesOf s.data)))).data =
      unlines (processLines false (linesOf s.data)) := rfl
  rw [hdata]
  have hnl : ∀ l ∈ linesOf s.data, '\n' ∉ l := mem_linesOf_no_nl s.data
  have hout : ∀ l ∈ processLines false (linesOf s.data), '\n' ∉ l :=
    processLines_no_nl false _ hnl
  have hlen := processLines_length false (linesOf s.data)
  cases hL : processLines false (linesOf s.data) with
  | nil =>
    exfalso
    rw [hL] at hlen
    simp [linesOf] at hlen
  | cons l0 L2 =>
    rw [hL] at hout hlen
    rw [linesOf_unlines L2 l0 (hout l0 (List.mem_cons_self l0 L2))
      (fun x hx => hout x (List.mem_cons_of_mem l0 hx))]
    rw [hlen]

/-- Claim C8: the conversion never fails: for every string input it returns
a string, and malformed markdown such as an unterminated fence or an
unmatched bold delimiter passes through partially transformed or
unmodified. -/
theorem conversion_never_fails :
    (∀ s : String, (markdown_to_slack_format (some s)).isSome = true) ∧
    markdown_to_slack_format (some "```\n**not closed [link](") =
      some "```\n**not closed [link](" ∧
    markdown_to_slack_format (some "This is **unmatched") =
      some "This is **unmatched" :=
  ⟨fun s => rfl, by decide, by decide⟩

/-- Claim C9: the notification sender embeds the raw release body in the
text field, not the output of the markdown conversion: at the failing input
the body is embedded verbatim while its converted form differs. -/
theorem slack_notification_embeds_raw_body :
    send_slack_notification_text "https://api.test/r" "v1.0.0"
        (some "# Header") "https://client.test" =
      ":rocket: New release <https://api.test/r|v1.0.0> deployed at https://client.test\n\n*Release notes:*\n# Header" ∧
    markdown_to_slack_format (some "# Header") = some "*HEADER*" ∧
    ("# Header" : String) ≠ "*HEADER*" :=
  ⟨by decide, by decide, by decide⟩

/-- Stated from the claim: the sort key with a single leading letter v
stripped (the code strips every leading v instead). -/
def claimSortKey (tag : String) : List Nat :=
  match parseSemver (match tag.data with
    | 'v' :: rest => rest
    | l => l) with
  | some v => encodeVer v
  | none => encodeVer ⟨0, 0, 0, []⟩

/-- Stated from the claim: each key is strictly greater than the next. -/
def strictlyDescending (l : List (List Nat)) : Prop :=
  List.Pairwise (fun a b => b < a) l

theorem filter_key_orderedInsert (K : List Nat) (a : Release)
    (l : List Release) :
    (List.orderedInsert (fun x y =>
        semver_sort_key y.tag_name ≤ semver_sort_key x.tag_name) a l).filter
      (fun r => semver_sort_key r.tag_name == K) =
    (a :: l).filter (fun r => semver_sort_key r.tag_name == K) := by
  induction l with
  | nil => rfl
  | cons b t ih =>
    simp only [List.orderedInsert]
    by_cases hab : semver_sort_key b.tag_name ≤ semver_sort_key a.tag_name
    · rw [if_pos hab]
    · rw [if_neg hab]
      by_cases hpa : (semver_sort_key a.tag_name == K) = true <;>
        by_cases hpb : (semver_sort_key b.tag_name == K) = true
      · exfalso
        have h1 : semver_sort_key a.tag_name = K := by simpa using hpa
        have h2 : semver_sort_key b.tag_name = K := by simpa using hpb
        exact hab (le_of_eq (h2.trans h1.symm))
      · simp [List.filter_cons, hpa, hpb, ih]
      · simp [List.filter_cons, hpa, hpb, ih]
      · simp [List.filter_cons, hpa, hpb, ih]

theorem filter_key_insertionSort (K : List Nat) (l : List Release) :
    (List.insertionSort (fun x y =>
        semver_sort_key y.tag_name ≤ semver_sort_key x.tag_name) l).filter
      (fun r => semver_sort_key r.tag_name == K) =
    l.filter (fun r => semver_sort_key r.tag_name == K) := by
  induction l with
  | nil => rfl
  | cons a t ih =>
    show (List.orderedInsert _ a (List.insertionSort _ t)).filter _ = _
    rw [filter_key_orderedInsert K a (List.insertionSort _ t)]
    simp [List.filter_cons, ih]

/-- Counterexample to claim C10 as stated: first, two fetched releases
whose tags denote the same semantic version both pass the filter and are
returned in fetch order, so the output is not strictly descending in the
claimed key order; second, under the claimed key (one leading letter v
stripped, unparseable tags ordered as 0.0.0) the output for the tags
vv2.0.0 and v1.0.0 is not even non-strictly descending, because the code
strips every leading v and sorts vv2.0.0 as 2.0.0 while the claimed key
leaves v2.0.0 unparseable and maps it to 0.0.0. -/
theorem sort_not_strictly_descending :
    (¬ strictlyDescending
      ((get_github_releases [⟨"1.0.0", false⟩, ⟨"v1.0.0", false⟩]
          false "" "").map (fun r => claimSortKey r.tag_name))) ∧
    ¬ List.Pairwise (fun a b => b ≤ a)
      ((get_github_releases [⟨"vv2.0.0", false⟩, ⟨"v1.0.0", false⟩]
          false "" "").map (fun r => claimSortKey r.tag_name)) := by
  constructor
  · intro hcontra
    have houtput : get_github_releases [⟨"1.0.0", false⟩, ⟨"v1.0.0", false⟩]
        false "" "" = [⟨"1.0.0", false⟩, ⟨"v1.0.0", false⟩] := by decide
    rw [houtput] at hcontra
    have hkeys : claimSortKey "v1.0.0" = claimSortKey "1.0.0" := by decide
    unfold strictlyDescending at hcontra
    rw [List.map_cons, List.map_cons, List.map_nil,
      List.pairwise_cons] at hcontra
    obtain ⟨hlt, -⟩ := hcontra
    have h2 := hlt (claimSortKey "v1.0.0") (List.mem_cons_self _ _)
    rw [hkeys] at h2
    exact lt_irrefl _ h2
  · intro hcontra
    have houtput : get_github_releases [⟨"vv2.0.0", false⟩, ⟨"v1.0.0", false⟩]
        false "" "" = [⟨"vv2.0.0", false⟩, ⟨"v1.0.0", false⟩] := by decide
    rw [houtput] at hcontra
    rw [List.map_cons, List.map_cons, List.map_nil,
      List.pairwise_cons] at hcontra
    obtain ⟨hle, -⟩ := hcontra
    have h2 := hle (claimSortKey "v1.0.0") (List.mem_cons_self _ _)
    have h3 : ¬ (claimSortKey "v1.0.0" ≤ claimSortKey "vv2.0.0") := by decide
    exact h3 h2

/-- Claim C10 (amended): get_github_releases returns exactly the fetched
releases passing the three filters (its output is a permutation of the
filtered list) sorted by semantic version of the tag name with leading v
characters stripped, descending and stable (equal versions keep fetch
order: for every key value the releases carrying that key appear exactly
as in the filtered input), where an unparseable tag is ordered as version
0.0.0; in particular two tags with equal versions come out in fetch
order. -/
theorem get_github_releases_spec :
    (∀ (rs : List Release) (inc : Bool) (pt vp : String),
      List.Perm (get_github_releases rs inc pt vp)
          (rs.filter (releaseMatches inc pt vp)) ∧
        List.Pairwise (fun a b =>
            semver_sort_key b.tag_name ≤ semver_sort_key a.tag_name)
          (get_github_releases rs inc pt vp)) ∧
    (∀ (rs : List Release) (inc : Bool) (pt vp : String) (K : List Nat),
      (get_github_releases rs inc pt vp).filter
          (fun r => semver_sort_key r.tag_name == K) =
        (rs.filter (releaseMatches inc pt vp)).filter
          (fun r => semver_sort_key r.tag_name == K)) ∧
    semver_sort_key "not-a-version" = encodeVer ⟨0, 0, 0, []⟩ ∧
    get_github_releases [⟨"1.0.0", false⟩, ⟨"v1.0.0", false⟩] false "" "" =
      [⟨"1.0.0", false⟩, ⟨"v1.0.0", false⟩] ∧
    get_github_releases
        [⟨"v1.2.3", false⟩, ⟨"v2.0.0-rc1", false⟩, ⟨"v2.0.0", false⟩,
         ⟨"vvv", false⟩] false "" "" =
      [⟨"v2.0.0", false⟩, ⟨"v2.0.0-rc1", false⟩, ⟨"v1.2.3", false⟩,
       ⟨"vvv", false⟩] := by
  refine ⟨fun rs inc pt vp => ?_,
    fun rs inc pt vp K =>
      filter_key_insertionSort K (rs.filter (releaseMatches inc pt vp)),
    by decide, by decide, by decide⟩
  constructor
  · exact List.perm_insertionSort _ _
  · haveI h1 : IsTotal Release (fun a b =>
        semver_sort_key b.tag_name ≤ semver_sort_key a.tag_name) :=
      ⟨fun a b => le_total _ _⟩
    haveI h2 : IsTrans Release (fun a b =>
        semver_sort_key b.tag_name ≤ semver_sort_key a.tag_name) :=
      ⟨fun a b c hab hbc => le_trans hbc hab⟩
    exact List.sorted_insertionSort _ _
